import Mathlib

/-!
Verification development for the libjit expression-compiler playground.

The repository contains two variants of the same small compiler:
* `src/C++_API/main.cpp` — visitor `UserFunction` (jit-plus C++ API), binding
  an ordered `std::vector<std::string>` of identifiers to parameter slots;
* `src/C_API/main.cpp` — visitor `CodegenVisitor` (raw C API), binding an
  `std::unordered_map<std::string, jit_float64>` whose iteration order fixes
  both parameter slots and the packed argument vector.

The embedding below translates the AST, the two code generators and the
calling convention from the source.  The native-code backend (libjit) is not
part of the repository; its emitter capabilities are modelled symbolically
(`JitValue` terms for value handles) and its float64 arithmetic is modelled
by `F64`, an exact-rational idealization of IEEE 754 binary64.
-/

namespace LibjitPlayground

/-- Binary operators, from `enum class BinaryOperator` (both variants). -/
inductive BinaryOperator where
  | Plus
  | Minus
  | Mult
  | Div
deriving DecidableEq

/-- Unary operators, from `enum class UnaryOperator` (both variants). -/
inductive UnaryOperator where
  | Acos
  | Asin
  | Atan
  | Cos
  | Cosh
  | Exp
  | Log10
  | Sin
  | Sinh
  | Sqrt
  | Tan
  | Tanh
deriving DecidableEq

/--
Modelled from the spec: the backend float64 value domain.  The emitter
(libjit) and the machine arithmetic it lowers to are outside the repository;
the spec fixes their contract as IEEE 754 binary64 ("produces infinity or
NaN, never a raised error").  Finite values are carried as exact rationals:
on every input appearing in the claims the binary64 computation is exact, so
this idealization agrees with IEEE 754 there (rounding and overflow of
finite intermediate results, and signed zero, are not modelled).
-/
inductive F64 where
  | finite (q : ℚ)
  | inf
  | neginf
  | nan
deriving DecidableEq

/-- Modelled from the spec: IEEE 754 addition on `F64`. -/
def F64.add : F64 → F64 → F64
  | .nan, _ => .nan
  | _, .nan => .nan
  | .inf, .neginf => .nan
  | .neginf, .inf => .nan
  | .inf, _ => .inf
  | _, .inf => .inf
  | .neginf, _ => .neginf
  | _, .neginf => .neginf
  | .finite a, .finite b => .finite (a + b)

/-- Modelled from the spec: IEEE 754 subtraction on `F64`. -/
def F64.sub : F64 → F64 → F64
  | .nan, _ => .nan
  | _, .nan => .nan
  | .inf, .inf => .nan
  | .neginf, .neginf => .nan
  | .inf, _ => .inf
  | .neginf, _ => .neginf
  | .finite _, .inf => .neginf
  | .finite _, .neginf => .inf
  | .finite a, .finite b => .finite (a - b)

/-- Modelled from the spec: IEEE 754 multiplication on `F64`. -/
def F64.mul : F64 → F64 → F64
  | .nan, _ => .nan
  | _, .nan => .nan
  | .inf, .inf => .inf
  | .inf, .neginf => .neginf
  | .neginf, .inf => .neginf
  | .neginf, .neginf => .inf
  | .inf, .finite b => if b = 0 then .nan else if 0 < b then .inf else .neginf
  | .finite a, .inf => if a = 0 then .nan else if 0 < a then .inf else .neginf
  | .neginf, .finite b => if b = 0 then .nan else if 0 < b then .neginf else .inf
  | .finite a, .neginf => if a = 0 then .nan else if 0 < a then .neginf else .inf
  | .finite a, .finite b => .finite (a * b)

/--
Modelled from the spec: IEEE 754 division on `F64` (divisor zero is treated
as +0, since signed zero is not modelled): `x / 0` is `±inf` for finite
nonzero `x`, and `0 / 0` is NaN.
-/
def F64.div : F64 → F64 → F64
  | .nan, _ => .nan
  | _, .nan => .nan
  | .inf, .inf => .nan
  | .inf, .neginf => .nan
  | .neginf, .inf => .nan
  | .neginf, .neginf => .nan
  | .inf, .finite b => if 0 ≤ b then .inf else .neginf
  | .neginf, .finite b => if 0 ≤ b then .neginf else .inf
  | .finite _, .inf => .finite 0
  | .finite _, .neginf => .finite 0
  | .finite a, .finite b =>
    if b = 0 then
      if a = 0 then .nan else if 0 < a then .inf else .neginf
    else .finite (a / b)

/--
The 1:1 map from `BinaryOperator` to the backend primitive it is lowered to
(`insn_add` / `insn_sub` / `insn_mul` / `insn_div`), at the value level.
-/
def applyBinaryOperator : BinaryOperator → F64 → F64 → F64
  | .Plus => F64.add
  | .Minus => F64.sub
  | .Mult => F64.mul
  | .Div => F64.div

/--
The AST, from `struct ExprAST` and its four subclasses (`NumberExprAST`,
`IdentifierExprAST`, `BinaryExprAST`, `UnaryExprAST`).  The closed visitor
interface is rendered as a closed inductive; exclusive `unique_ptr` child
ownership is rendered as owned substructures.
-/
inductive ExprAST where
  | number (value : F64)
  | identifier (name : String)
  | binary (op : BinaryOperator) (lhs rhs : ExprAST)
  | unary (op : UnaryOperator) (arg : ExprAST)
deriving DecidableEq

/-- The identifiers occurring in a tree, in traversal order (a measurement
function used to state the claims; not part of the source). -/
def ExprAST.identifiersOf : ExprAST → List String
  | .number _ => []
  | .identifier name => [name]
  | .binary _ lhs rhs => lhs.identifiersOf ++ rhs.identifiersOf
  | .unary _ arg => arg.identifiersOf

/--
Abstract value handles of the emitter, the `jit_value` results of
`new_constant`, `get_param`, `insn_add`, `insn_sin`, ….  A handle records
symbolically which emitter primitive produced it and from which operand
handles, in operand order.
-/
inductive JitValue where
  | const (v : F64)
  | param (i : Nat)
  | binInsn (op : BinaryOperator) (l r : JitValue)
  | unInsn (op : UnaryOperator) (a : JitValue)
deriving DecidableEq

/-- The single recoverable generation failure: an identifier that cannot be
resolved to a parameter slot. -/
inductive GenError where
  | unresolvedIdentifier (name : String)
deriving DecidableEq

/--
`std::distance(begin, std::find_if(begin, end, p))`: the index of the first
element satisfying `p`, or the length of the list when there is none.  Used
by both variants to turn an identifier lookup into a parameter slot index.
-/
def distanceToFirst (p : α → Bool) : List α → Nat
  | [] => 0
  | x :: xs => if p x then 0 else distanceToFirst p xs + 1

/-- Parameter/return types; the playground only ever uses `jit_type_float64`. -/
inductive JitType where
  | float64
deriving DecidableEq

/-- Calling conventions; the playground only ever uses `jit_abi_cdecl`. -/
inductive JitAbi where
  | cdecl
deriving DecidableEq

/-- A `jit_type_create_signature` result: ABI, return type, parameter types. -/
structure Signature where
  abi : JitAbi
  ret : JitType
  params : List JitType
deriving DecidableEq

/--
`UserFunction::create_signature` (C++ API): one float64 parameter per bound
identifier, float64 return, cdecl ABI.
-/
def UserFunction.create_signature (identifiers : List String) : Signature :=
  { abi := .cdecl, ret := .float64, params := List.replicate identifiers.length .float64 }

/--
The accumulator-style visitor of `UserFunction` (C++ API): `accept ids e cur`
runs `e.accept(this)` with `current_result = cur` and returns the value of
`current_result` afterwards (on every successful visit the field is
assigned, so the post-state is a real handle, not null).

* `visit_number_node`: `current_result = new_constant(value)`;
* `visit_identifier_node`: `std::find` over `identifiers`, slot index is the
  distance to the first match.  When the name is absent the distance equals
  `identifiers.size()`, an out-of-range `get_param` index; reading a
  positional parameter is only defined for slots below the arity, so the
  backend signals a generation failure (modelled from the spec: "an
  unresolved identifier (unknown variable name) aborts generation").
* `visit_binary_node`: visit `lhs` (read `current_result` into `tmp_left`),
  visit `rhs` (read `current_result` into `tmp_right`), then assign the
  operator instruction over `(tmp_left, tmp_right)`;
* `visit_unary_node`: visit `arg`, then assign the operator instruction over
  the read handle.
-/
def UserFunction.accept (identifiers : List String) :
    ExprAST → Option JitValue → Except GenError JitValue
  | .number value, _ => .ok (.const value)
  | .identifier name, _ =>
    let idx := distanceToFirst (fun s => s == name) identifiers
    if idx < identifiers.length then .ok (.param idx)
    else .error (.unresolvedIdentifier name)
  | .binary op lhs rhs, cur =>
    match UserFunction.accept identifiers lhs cur with
    | .error err => .error err
    | .ok tmp_left =>
      match UserFunction.accept identifiers rhs (some tmp_left) with
      | .error err => .error err
      | .ok tmp_right => .ok (.binInsn op tmp_left tmp_right)
  | .unary op arg, cur =>
    match UserFunction.accept identifiers arg cur with
    | .error err => .error err
    | .ok tmp => .ok (.unInsn op tmp)

/--
`UserFunction::build`: run the visitor on the root with the initial (null)
`current_result`, then `insn_return(current_result)` — the returned handle
is the body's return value.
-/
def UserFunction.build (identifiers : List String) (ast : ExprAST) :
    Except GenError JitValue :=
  UserFunction.accept identifiers ast none

/-- The finalized invocable artifact: a signature plus the generated body's
return-value handle. -/
structure CompiledCallable where
  signature : Signature
  retValue : JitValue
deriving DecidableEq

/--
Compilation in the C++ API variant: create the signature from the binding
list, build the body, finalize.  All-or-nothing: no callable is exposed when
generation fails.
-/
def UserFunction.compile (identifiers : List String) (ast : ExprAST) :
    Except GenError CompiledCallable :=
  match UserFunction.build identifiers ast with
  | .error err => .error err
  | .ok body =>
    .ok { signature := UserFunction.create_signature identifiers, retValue := body }

/--
Evaluation of a value handle given an argument vector — the semantics the
finalized native code gives to the generated body.  `uinterp` interprets the
twelve unary primitives (their math-library semantics are outside the
repository; no claim depends on a particular interpretation).  A `param`
read is positional; indices produced by successful generation are always in
range, out-of-range reads are outside the backend contract (modelled as
NaN).
-/
def JitValue.eval (uinterp : UnaryOperator → F64 → F64) (args : List F64) :
    JitValue → F64
  | .const v => v
  | .param i => args.getD i .nan
  | .binInsn op l r => applyBinaryOperator op (l.eval uinterp args) (r.eval uinterp args)
  | .unInsn op a => uinterp op (a.eval uinterp args)

/--
`UserFunction::call`: copy the float64 arguments, `apply` the compiled
function to them positionally, return the float64 result.
-/
def CompiledCallable.call (uinterp : UnaryOperator → F64 → F64)
    (f : CompiledCallable) (arguments : List F64) : F64 :=
  f.retValue.eval uinterp arguments

/--
One invocation, with the post-invocation callable made explicit:
`apply` reads only the immutable compiled body, so the callable after the
invocation is the callable before it.
-/
def CompiledCallable.invoke (uinterp : UnaryOperator → F64 → F64)
    (f : CompiledCallable) (arguments : List F64) : F64 × CompiledCallable :=
  (f.call uinterp arguments, f)

/-- A sequence of invocations of one callable, each starting from the state
the previous one left behind; returns the results in order and the final
callable state. -/
def runInvocations (uinterp : UnaryOperator → F64 → F64)
    (f : CompiledCallable) : List (List F64) → List F64 × CompiledCallable
  | [] => ([], f)
  | args :: rest =>
    let step := f.invoke uinterp args
    let tail := runInvocations uinterp step.2 rest
    (step.1 :: tail.1, tail.2)

/-- Compile with a binding list and invoke the resulting callable on one
argument vector (the end-to-end path of `main` in the C++ API variant). -/
def compileAndCall (uinterp : UnaryOperator → F64 → F64)
    (identifiers : List String) (ast : ExprAST) (arguments : List F64) :
    Except GenError F64 :=
  (UserFunction.compile identifiers ast).map (fun f => f.call uinterp arguments)

/--
Modelled from the spec: the explicit-return recursive code generator —
"replace [the accumulator] with an explicit return value from the recursive
traversal function (each generation step returns its value handle
directly)".  This is the comparison point for the refinement claim about
`UserFunction.accept`, written from the spec's words, not from the source.
-/
def codegen (identifiers : List String) : ExprAST → Except GenError JitValue
  | .number value => .ok (.const value)
  | .identifier name =>
    let idx := distanceToFirst (fun s => s == name) identifiers
    if idx < identifiers.length then .ok (.param idx)
    else .error (.unresolvedIdentifier name)
  | .binary op lhs rhs =>
    match codegen identifiers lhs with
    | .error err => .error err
    | .ok l =>
      match codegen identifiers rhs with
      | .error err => .error err
      | .ok r => .ok (.binInsn op l r)
  | .unary op arg =>
    match codegen identifiers arg with
    | .error err => .error err
    | .ok a => .ok (.unInsn op a)

/--
The `unordered_map::find` semantics on the map's iteration sequence: the
value of the first entry whose key is the searched name (for an
`unordered_map` keys are unique, so "first" is "the" entry).
-/
def mapFind (identifier_map : List (String × F64)) (name : String) : Option F64 :=
  match identifier_map with
  | [] => none
  | p :: ps => if p.1 == name then some p.2 else mapFind ps name

/--
The visitor of `CodegenVisitor` (C API variant), over the identifier map's
iteration sequence.  `visit_identifier_node` asserts the name is present in
the map, then uses `std::distance(map.begin(), map.find(name))` — the
name's position in iteration order — as the parameter slot index.  The
other three visits are as in the C++ API variant.
-/
def CodegenVisitor.accept (identifier_map : List (String × F64)) :
    ExprAST → Option JitValue → Except GenError JitValue
  | .number value, _ => .ok (.const value)
  | .identifier name, _ =>
    match mapFind identifier_map name with
    | some _ => .ok (.param (distanceToFirst (fun p => p.1 == name) identifier_map))
    | none => .error (.unresolvedIdentifier name)
  | .binary op lhs rhs, cur =>
    match CodegenVisitor.accept identifier_map lhs cur with
    | .error err => .error err
    | .ok tmp_left =>
      match CodegenVisitor.accept identifier_map rhs (some tmp_left) with
      | .error err => .error err
      | .ok tmp_right => .ok (.binInsn op tmp_left tmp_right)
  | .unary op arg, cur =>
    match CodegenVisitor.accept identifier_map arg cur with
    | .error err => .error err
    | .ok tmp => .ok (.unInsn op tmp)

/--
`compile_and_run` (C API variant): build a signature with one float64
parameter per map entry, generate the body with `CodegenVisitor::compile`
(initial `current_result` null), finalize, then apply the function to the
argument vector packed from the map's values in the same iteration order.
-/
def compile_and_run (uinterp : UnaryOperator → F64 → F64) (ast : ExprAST)
    (identifier_map : List (String × F64)) : Except GenError F64 :=
  match CodegenVisitor.accept identifier_map ast none with
  | .error err => .error err
  | .ok body => .ok (body.eval uinterp (identifier_map.map Prod.snd))

/-- The demonstration tree of both `main`s:
`Add(Mult(Number(1), Number(2)), Mult(Identifier("y"), Identifier("x")))`. -/
def mainAST : ExprAST :=
  .binary .Plus
    (.binary .Mult (.number (.finite 1)) (.number (.finite 2)))
    (.binary .Mult (.identifier "y") (.identifier "x"))

/--
A reference denotation of a tree under an environment, used to characterize
both generators: evaluate the tree directly, failing on the first identifier
(in traversal order) the environment does not bind.
-/
def denoteE (uinterp : UnaryOperator → F64 → F64) (env : String → Option F64) :
    ExprAST → Except GenError F64
  | .number value => .ok value
  | .identifier name =>
    match env name with
    | some v => .ok v
    | none => .error (.unresolvedIdentifier name)
  | .binary op lhs rhs =>
    match denoteE uinterp env lhs with
    | .error err => .error err
    | .ok a =>
      match denoteE uinterp env rhs with
      | .error err => .error err
      | .ok b => .ok (applyBinaryOperator op a b)
  | .unary op arg =>
    match denoteE uinterp env arg with
    | .error err => .error err
    | .ok x => .ok (uinterp op x)

/-- The environment realized by the C++ API binding: a name maps to the
argument at its first-occurrence slot, and is unbound when absent. -/
def envOf (identifiers : List String) (arguments : List F64) (name : String) :
    Option F64 :=
  if distanceToFirst (fun s => s == name) identifiers < identifiers.length then
    some (arguments.getD (distanceToFirst (fun s => s == name) identifiers) .nan)
  else none

deriving instance DecidableEq for Except

/-- The first-match distance is below the length exactly when some element
satisfies the predicate. -/
lemma distanceToFirst_lt_length_iff {α : Type} {p : α → Bool} (l : List α) :
    distanceToFirst p l < l.length ↔ ∃ x ∈ l, p x = true := by
  induction l with
  | nil => simp [distanceToFirst]
  | cons x xs ih =>
    by_cases h : p x = true
    · have hd : distanceToFirst p (x :: xs) = 0 := by simp [distanceToFirst, h]
      rw [hd]
      simp only [List.length_cons]
      constructor
      · intro _
        exact ⟨x, List.mem_cons_self x xs, h⟩
      · intro _
        exact Nat.succ_pos _
    · have hd : distanceToFirst p (x :: xs) = distanceToFirst p xs + 1 := by
        simp [distanceToFirst, h]
      rw [hd]
      simp only [List.length_cons, Nat.add_lt_add_iff_right, ih, List.mem_cons]
      constructor
      · rintro ⟨y, hy, hpy⟩
        exact ⟨y, Or.inr hy, hpy⟩
      · rintro ⟨y, hy | hy, hpy⟩
        · subst hy
          exact absurd hpy h
        · exact ⟨y, hy, hpy⟩

/-- The element at the first-match distance satisfies the predicate. -/
lemma distanceToFirst_getElem {α : Type} {p : α → Bool} :
    ∀ l : List α, distanceToFirst p l < l.length →
      ∃ x, l[distanceToFirst p l]? = some x ∧ p x = true := by
  intro l
  induction l with
  | nil => intro h; simp [distanceToFirst] at h
  | cons x xs ih =>
    intro h
    by_cases hp : p x = true
    · exact ⟨x, by simp [distanceToFirst, hp], hp⟩
    · have hd : distanceToFirst p (x :: xs) = distanceToFirst p xs + 1 := by
        simp [distanceToFirst, hp]
      have h2 : distanceToFirst p xs < xs.length := by
        rw [hd] at h
        simp only [List.length_cons] at h
        omega
      obtain ⟨y, hy, hpy⟩ := ih h2
      refine ⟨y, ?_, hpy⟩
      rw [hd]
      simpa using hy

/-- No element strictly before the first-match distance satisfies the
predicate. -/
lemma distanceToFirst_minimal {α : Type} {p : α → Bool} :
    ∀ (l : List α) (j : Nat), j < distanceToFirst p l →
      ∀ x, l[j]? = some x → p x = false := by
  intro l
  induction l with
  | nil => intro j hj x hx; simp at hx
  | cons y ys ih =>
    intro j hj x hx
    by_cases hp : p y = true
    · simp [distanceToFirst, hp] at hj
    · cases j with
      | zero =>
        simp only [List.getElem?_cons_zero, Option.some_inj] at hx
        subst hx
        simp [hp]
      | succ k =>
        have hd : distanceToFirst p (y :: ys) = distanceToFirst p ys + 1 := by
          simp [distanceToFirst, hp]
        rw [hd] at hj
        have hj2 : k < distanceToFirst p ys := by omega
        simp only [List.getElem?_cons_succ] at hx
        exact ih k hj2 x hx

/--
The accumulator-styled visitor equals the explicit-return generator on every
tree, from every initial value of the accumulator field: threading
`current_result` through the post-order traversal returns exactly the handle
the explicit-return traversal returns.
-/
lemma accept_eq_codegen (identifiers : List String) :
    ∀ (e : ExprAST) (cur : Option JitValue),
      UserFunction.accept identifiers e cur = codegen identifiers e := by
  intro e
  induction e with
  | number v => intro cur; rfl
  | identifier n => intro cur; rfl
  | binary op l r ihl ihr =>
    intro cur
    simp only [UserFunction.accept, codegen, ihl, ihr]
  | unary op a iha =>
    intro cur
    simp only [UserFunction.accept, codegen, iha]

/--
Characterization of the C++ API generator composed with evaluation: running
the generated handle on an argument vector is the direct denotation of the
tree under the binding-list environment, including the error case.
-/
lemma accept_map_eval (u : UnaryOperator → F64 → F64) (identifiers : List String)
    (args : List F64) :
    ∀ (e : ExprAST) (cur : Option JitValue),
      (UserFunction.accept identifiers e cur).map (JitValue.eval u args)
        = denoteE u (envOf identifiers args) e := by
  intro e
  induction e with
  | number v => intro cur; rfl
  | identifier n =>
    intro cur
    by_cases h : distanceToFirst (fun s => s == n) identifiers < identifiers.length
    · simp [UserFunction.accept, denoteE, envOf, h, Except.map, JitValue.eval]
    · simp [UserFunction.accept, denoteE, envOf, h, Except.map]
  | binary op l r ihl ihr =>
    intro cur
    have hl := ihl cur
    cases haccl : UserFunction.accept identifiers l cur with
    | error err =>
      rw [haccl] at hl
      simp only [Except.map] at hl
      simp only [UserFunction.accept, haccl, denoteE, ← hl, Except.map]
    | ok tmpL =>
      rw [haccl] at hl
      simp only [Except.map] at hl
      have hr := ihr (some tmpL)
      cases haccr : UserFunction.accept identifiers r (some tmpL) with
      | error err =>
        rw [haccr] at hr
        simp only [Except.map] at hr
        simp only [UserFunction.accept, haccl, haccr, denoteE, ← hl, ← hr, Except.map]
      | ok tmpR =>
        rw [haccr] at hr
        simp only [Except.map] at hr
        simp only [UserFunction.accept, haccl, haccr, denoteE, ← hl, ← hr, Except.map,
          JitValue.eval]
  | unary op a iha =>
    intro cur
    have ha := iha cur
    cases hacc : UserFunction.accept identifiers a cur with
    | error err =>
      rw [hacc] at ha
      simp only [Except.map] at ha
      simp only [UserFunction.accept, hacc, denoteE, ← ha, Except.map]
    | ok tmp =>
      rw [hacc] at ha
      simp only [Except.map] at ha
      simp only [UserFunction.accept, hacc, denoteE, ← ha, Except.map, JitValue.eval]

/-- When every identifier of the tree is in the binding list, the visitor
succeeds on the tree from every accumulator state. -/
lemma accept_ok_of_covered (identifiers : List String) :
    ∀ (e : ExprAST) (cur : Option JitValue),
      (∀ n ∈ e.identifiersOf, n ∈ identifiers) →
      ∃ v, UserFunction.accept identifiers e cur = .ok v := by
  intro e
  induction e with
  | number v => intro cur _; exact ⟨.const v, rfl⟩
  | identifier n =>
    intro cur hcov
    have hmem : n ∈ identifiers := hcov n (by simp [ExprAST.identifiersOf])
    have hd : distanceToFirst (fun s => s == n) identifiers < identifiers.length := by
      rw [distanceToFirst_lt_length_iff]
      exact ⟨n, hmem, by simp⟩
    refine ⟨.param (distanceToFirst (fun s => s == n) identifiers), ?_⟩
    simp [UserFunction.accept, hd]
  | binary op l r ihl ihr =>
    intro cur hcov
    obtain ⟨vl, hvl⟩ := ihl cur (fun n hn => hcov n (by simp [ExprAST.identifiersOf, hn]))
    obtain ⟨vr, hvr⟩ := ihr (some vl) (fun n hn => hcov n (by simp [ExprAST.identifiersOf, hn]))
    refine ⟨.binInsn op vl vr, ?_⟩
    simp [UserFunction.accept, hvl, hvr]
  | unary op a iha =>
    intro cur hcov
    obtain ⟨va, hva⟩ := iha cur (fun n hn => hcov n (by simpa [ExprAST.identifiersOf] using hn))
    refine ⟨.unInsn op va, ?_⟩
    simp [UserFunction.accept, hva]

/-- Every generation failure of the visitor is an unresolved-identifier
failure, for an identifier of the tree that is absent from the binding
list. -/
lemma accept_error_unresolved (identifiers : List String) :
    ∀ (e : ExprAST) (cur : Option JitValue) (err : GenError),
      UserFunction.accept identifiers e cur = .error err →
      ∃ n, err = .unresolvedIdentifier n ∧ n ∈ e.identifiersOf ∧ n ∉ identifiers := by
  intro e
  induction e with
  | number v => intro cur err h; simp [UserFunction.accept] at h
  | identifier n =>
    intro cur err h
    by_cases hd : distanceToFirst (fun s => s == n) identifiers < identifiers.length
    · simp [UserFunction.accept, hd] at h
    · simp only [UserFunction.accept] at h
      rw [if_neg hd] at h
      injection h with h2
      refine ⟨n, h2.symm, by simp [ExprAST.identifiersOf], ?_⟩
      intro hmem
      exact hd ((distanceToFirst_lt_length_iff identifiers).mpr ⟨n, hmem, by simp⟩)
  | binary op l r ihl ihr =>
    intro cur err h
    cases haccl : UserFunction.accept identifiers l cur with
    | error errl =>
      simp only [UserFunction.accept, haccl, Except.error.injEq] at h
      obtain ⟨n, hn1, hn2, hn3⟩ := ihl cur errl haccl
      exact ⟨n, h ▸ hn1, by simp [ExprAST.identifiersOf, hn2], hn3⟩
    | ok tmpL =>
      cases haccr : UserFunction.accept identifiers r (some tmpL) with
      | error errr =>
        simp only [UserFunction.accept, haccl, haccr, Except.error.injEq] at h
        obtain ⟨n, hn1, hn2, hn3⟩ := ihr (some tmpL) errr haccr
        exact ⟨n, h ▸ hn1, by simp [ExprAST.identifiersOf, hn2], hn3⟩
      | ok tmpR =>
        simp [UserFunction.accept, haccl, haccr] at h
  | unary op a iha =>
    intro cur err h
    cases hacc : UserFunction.accept identifiers a cur with
    | error erra =>
      simp only [UserFunction.accept, hacc, Except.error.injEq] at h
      obtain ⟨n, hn1, hn2, hn3⟩ := iha cur erra hacc
      exact ⟨n, h ▸ hn1, by simpa [ExprAST.identifiersOf] using hn2, hn3⟩
    | ok tmp =>
      simp [UserFunction.accept, hacc] at h

/-- When the visitor succeeds, every identifier of the tree is in the
binding list. -/
lemma accept_ok_covered (identifiers : List String) :
    ∀ (e : ExprAST) (cur : Option JitValue) (v : JitValue),
      UserFunction.accept identifiers e cur = .ok v →
      ∀ n ∈ e.identifiersOf, n ∈ identifiers := by
  intro e
  induction e with
  | number v => intro cur v h n hn; simp [ExprAST.identifiersOf] at hn
  | identifier m =>
    intro cur v h n hn
    simp only [ExprAST.identifiersOf, List.mem_singleton] at hn
    subst hn
    by_cases hd : distanceToFirst (fun s => s == n) identifiers < identifiers.length
    · obtain ⟨y, hy, hpy⟩ := (distanceToFirst_lt_length_iff identifiers).mp hd
      have hyn : y = n := by simpa using hpy
      subst hyn
      exact hy
    · simp [UserFunction.accept, hd] at h
  | binary op l r ihl ihr =>
    intro cur v h n hn
    cases haccl : UserFunction.accept identifiers l cur with
    | error errl => simp [UserFunction.accept, haccl] at h
    | ok tmpL =>
      cases haccr : UserFunction.accept identifiers r (some tmpL) with
      | error errr => simp [UserFunction.accept, haccl, haccr] at h
      | ok tmpR =>
        simp only [ExprAST.identifiersOf, List.mem_append] at hn
        rcases hn with hn | hn
        · exact ihl cur tmpL haccl n hn
        · exact ihr (some tmpL) tmpR haccr n hn
  | unary op a iha =>
    intro cur v h n hn
    cases hacc : UserFunction.accept identifiers a cur with
    | error erra => simp [UserFunction.accept, hacc] at h
    | ok tmp =>
      simp only [ExprAST.identifiersOf] at hn
      exact iha cur tmp hacc n hn

/-- Reading the packed argument vector at an identifier's iteration-order
index yields exactly the value the map binds to that identifier. -/
lemma mapFind_getD (name : String) (v : F64) :
    ∀ m : List (String × F64), mapFind m name = some v →
      (m.map Prod.snd).getD (distanceToFirst (fun p => p.1 == name) m) F64.nan = v := by
  intro m
  induction m with
  | nil => intro h; simp [mapFind] at h
  | cons p ps ih =>
    intro h
    by_cases hp : (p.1 == name) = true
    · rw [mapFind] at h
      rw [if_pos hp] at h
      cases h
      simp [distanceToFirst, hp]
    · rw [mapFind] at h
      rw [if_neg hp] at h
      have hd : distanceToFirst (fun q => q.1 == name) (p :: ps)
          = distanceToFirst (fun q => q.1 == name) ps + 1 := by
        simp [distanceToFirst, hp]
      rw [hd]
      simpa using ih h

/--
Characterization of the C API generator composed with evaluation on the
argument vector packed from the map: it is the direct denotation of the
tree under the map-lookup environment, including the error case.
-/
lemma capi_accept_map_eval (u : UnaryOperator → F64 → F64)
    (m : List (String × F64)) :
    ∀ (e : ExprAST) (cur : Option JitValue),
      (CodegenVisitor.accept m e cur).map (JitValue.eval u (m.map Prod.snd))
        = denoteE u (mapFind m) e := by
  intro e
  induction e with
  | number v => intro cur; rfl
  | identifier n =>
    intro cur
    cases hf : mapFind m n with
    | some v =>
      simp only [CodegenVisitor.accept, hf, denoteE, Except.map, JitValue.eval]
      exact congrArg Except.ok (mapFind_getD n v m hf)
    | none => simp [CodegenVisitor.accept, hf, denoteE, Except.map]
  | binary op l r ihl ihr =>
    intro cur
    have hl := ihl cur
    cases haccl : CodegenVisitor.accept m l cur with
    | error err =>
      rw [haccl] at hl
      simp only [Except.map] at hl
      simp only [CodegenVisitor.accept, haccl, denoteE, ← hl, Except.map]
    | ok tmpL =>
      rw [haccl] at hl
      simp only [Except.map] at hl
      have hr := ihr (some tmpL)
      cases haccr : CodegenVisitor.accept m r (some tmpL) with
      | error err =>
        rw [haccr] at hr
        simp only [Except.map] at hr
        simp only [CodegenVisitor.accept, haccl, haccr, denoteE, ← hl, ← hr, Except.map]
      | ok tmpR =>
        rw [haccr] at hr
        simp only [Except.map] at hr
        simp only [CodegenVisitor.accept, haccl, haccr, denoteE, ← hl, ← hr, Except.map,
          JitValue.eval]
  | unary op a iha =>
    intro cur
    have ha := iha cur
    cases hacc : CodegenVisitor.accept m a cur with
    | error err =>
      rw [hacc] at ha
      simp only [Except.map] at ha
      simp only [CodegenVisitor.accept, hacc, denoteE, ← ha, Except.map]
    | ok tmp =>
      rw [hacc] at ha
      simp only [Except.map] at ha
      simp only [CodegenVisitor.accept, hacc, denoteE, ← ha, Except.map, JitValue.eval]

/-- With duplicate-free keys, the map lookup finds exactly the entry bound
to the searched name. -/
lemma mapFind_eq_some_of_mem :
    ∀ (m : List (String × F64)), (m.map Prod.fst).Nodup →
      ∀ {name : String} {v : F64}, (name, v) ∈ m → mapFind m name = some v := by
  intro m
  induction m with
  | nil => intro _ name v h; simp at h
  | cons p ps ih =>
    intro hnd name v hmem
    simp only [List.map_cons, List.nodup_cons] at hnd
    rcases List.mem_cons.mp hmem with heq | htail
    · rw [← heq]
      simp [mapFind]
    · have hkey : name ∈ ps.map Prod.fst := List.mem_map.mpr ⟨(name, v), htail, rfl⟩
      have hne : ¬ (p.1 == name) = true := by
        simp only [beq_iff_eq]
        intro hcontr
        exact hnd.1 (hcontr ▸ hkey)
      rw [mapFind, if_neg hne]
      exact ih hnd.2 htail

/-- A successful map lookup returns an entry of the map. -/
lemma mem_of_mapFind_eq_some :
    ∀ (m : List (String × F64)) {name : String} {v : F64},
      mapFind m name = some v → (name, v) ∈ m := by
  intro m
  induction m with
  | nil => intro name v h; simp [mapFind] at h
  | cons p ps ih =>
    intro name v h
    by_cases hp : (p.1 == name) = true
    · rw [mapFind, if_pos hp] at h
      injection h with h2
      have hp2 : p.1 = name := by simpa using hp
      have hpv : (name, v) = p := by
        cases p
        simp_all
      rw [hpv]
      exact List.mem_cons_self p ps
    · rw [mapFind, if_neg hp] at h
      exact List.mem_cons_of_mem p (ih h)

/-- The map lookup fails exactly when the name is not among the keys. -/
lemma mapFind_eq_none_iff :
    ∀ (m : List (String × F64)) (name : String),
      mapFind m name = none ↔ name ∉ m.map Prod.fst := by
  intro m
  induction m with
  | nil => intro name; simp [mapFind]
  | cons p ps ih =>
    intro name
    by_cases hp : (p.1 == name) = true
    · rw [mapFind, if_pos hp]
      have hp2 : p.1 = name := by simpa using hp
      simp [hp2]
    · rw [mapFind, if_neg hp]
      have hp2 : ¬ p.1 = name := by simpa using hp
      simp [ih, hp2, Ne.symm hp2]

/-- With duplicate-free keys, the map lookup is invariant under reordering
of the map's entries. -/
lemma mapFind_perm (m₁ m₂ : List (String × F64)) (hperm : List.Perm m₁ m₂)
    (hnd : (m₁.map Prod.fst).Nodup) : mapFind m₁ = mapFind m₂ := by
  have hnd₂ : (m₂.map Prod.fst).Nodup := ((hperm.map Prod.fst).nodup_iff).mp hnd
  funext name
  cases h : mapFind m₁ name with
  | some v =>
    exact (mapFind_eq_some_of_mem m₂ hnd₂ (hperm.mem_iff.mp
      (mem_of_mapFind_eq_some m₁ h))).symm
  | none =>
    have hkeys : name ∉ m₁.map Prod.fst := (mapFind_eq_none_iff m₁ name).mp h
    have hkeys₂ : name ∉ m₂.map Prod.fst := fun hc =>
      hkeys ((hperm.map Prod.fst).mem_iff.mpr hc)
    exact ((mapFind_eq_none_iff m₂ name).mpr hkeys₂).symm

/-- The end-to-end C++ API pipeline denotes the tree under the binding-list
environment. -/
lemma compileAndCall_eq_denote (u : UnaryOperator → F64 → F64)
    (identifiers : List String) (e : ExprAST) (args : List F64) :
    compileAndCall u identifiers e args = denoteE u (envOf identifiers args) e := by
  have hchar := accept_map_eval u identifiers args e none
  cases h : UserFunction.accept identifiers e none with
  | error err =>
    rw [h] at hchar
    simp only [Except.map] at hchar
    simp only [compileAndCall, UserFunction.compile, UserFunction.build, h, Except.map,
      ← hchar]
  | ok v =>
    rw [h] at hchar
    simp only [Except.map] at hchar
    simp only [compileAndCall, UserFunction.compile, UserFunction.build, h, Except.map,
      CompiledCallable.call, ← hchar]

/-- The end-to-end C API pipeline denotes the tree under the map-lookup
environment. -/
lemma compile_and_run_eq_denote (u : UnaryOperator → F64 → F64) (e : ExprAST)
    (m : List (String × F64)) :
    compile_and_run u e m = denoteE u (mapFind m) e := by
  have hchar := capi_accept_map_eval u m e none
  cases h : CodegenVisitor.accept m e none with
  | error err =>
    rw [h] at hchar
    simp only [Except.map] at hchar
    simp only [compile_and_run, h, ← hchar]
  | ok v =>
    rw [h] at hchar
    simp only [Except.map] at hchar
    simp only [compile_and_run, h, ← hchar]

/-- Swapping the two-name binding order and the two-argument vector in step
realizes the same environment. -/
lemma envOf_swap_xy (a b : F64) : envOf ["x", "y"] [a, b] = envOf ["y", "x"] [b, a] := by
  funext n
  by_cases hx : n = "x"
  · subst hx
    simp [envOf, distanceToFirst]
  · by_cases hy : n = "y"
    · subst hy
      simp [envOf, distanceToFirst]
    · have hx2 : ¬ ("x" == n) = true := by simpa using fun hc => hx hc.symm
      have hy2 : ¬ ("y" == n) = true := by simpa using fun hc => hy hc.symm
      simp [envOf, distanceToFirst, hx2, hy2]

/--
C1: the expression tree
`Add(Mult(Number(1), Number(2)), Mult(Identifier("y"), Identifier("x")))`,
compiled with binding order `["x", "y"]` and invoked with arguments
`(3, 5)`, returns `17.0` (that is, `1*2 + 5*3`), whatever the
interpretation of the unary primitives.
-/
theorem claim_C1_example_invocation (u : UnaryOperator → F64 → F64) :
    compileAndCall u ["x", "y"] mainAST [F64.finite 3, F64.finite 5]
      = .ok (F64.finite 17) := by
  with_unfolding_all rfl

/--
C2: a tree containing an identifier absent from the binding list fails to
compile with an unresolved-identifier generation error, no callable is
exposed, and the error is always an unresolved identifier of the tree that
is absent from the binding list (the only failure kind).
-/
theorem claim_C2_unresolved_identifier_aborts (identifiers : List String)
    (e : ExprAST) (name : String) (h1 : name ∈ e.identifiersOf)
    (h2 : name ∉ identifiers) :
    (∃ n, n ∈ e.identifiersOf ∧ n ∉ identifiers ∧
      UserFunction.compile identifiers e = .error (.unresolvedIdentifier n)) ∧
    ∀ f, UserFunction.compile identifiers e ≠ .ok f := by
  cases hacc : UserFunction.accept identifiers e none with
  | error err =>
    obtain ⟨n, hn1, hn2, hn3⟩ := accept_error_unresolved identifiers e none err hacc
    constructor
    · exact ⟨n, hn2, hn3, by simp [UserFunction.compile, UserFunction.build, hacc, hn1]⟩
    · intro f hf
      simp [UserFunction.compile, UserFunction.build, hacc] at hf
  | ok v =>
    exact absurd (accept_ok_covered identifiers e none v hacc name h1) h2

/-- Witness for C2 at the tree `Identifier("z")` and binding `["x", "y"]`. -/
theorem claim_C2_witness :
    ("z" ∈ (ExprAST.identifier "z").identifiersOf ∧ "z" ∉ (["x", "y"] : List String)) ∧
    ((∃ n, n ∈ (ExprAST.identifier "z").identifiersOf ∧ n ∉ (["x", "y"] : List String) ∧
        UserFunction.compile ["x", "y"] (ExprAST.identifier "z")
          = .error (.unresolvedIdentifier n)) ∧
      ∀ f, UserFunction.compile ["x", "y"] (ExprAST.identifier "z") ≠ .ok f) :=
  ⟨⟨by decide, by decide⟩,
    claim_C2_unresolved_identifier_aborts ["x", "y"] (ExprAST.identifier "z") "z"
      (by decide) (by decide)⟩

/--
C3: when every identifier of a tree appears in the binding list, compilation
succeeds, and the callable's signature has arity equal to the number of
bound names, every parameter type float64 and return type float64.
-/
theorem claim_C3_success_arity (identifiers : List String) (e : ExprAST)
    (h : ∀ n ∈ e.identifiersOf, n ∈ identifiers) :
    ∃ f, UserFunction.compile identifiers e = .ok f ∧
      f.signature.params.length = identifiers.length ∧
      (∀ t ∈ f.signature.params, t = JitType.float64) ∧
      f.signature.ret = JitType.float64 := by
  obtain ⟨v, hv⟩ := accept_ok_of_covered identifiers e none h
  refine ⟨{ signature := UserFunction.create_signature identifiers, retValue := v },
    ?_, ?_, ?_, rfl⟩
  · simp [UserFunction.compile, UserFunction.build, hv]
  · simp [UserFunction.create_signature]
  · intro t ht
    simp only [UserFunction.create_signature] at ht
    exact List.eq_of_mem_replicate ht

/-- Witness for C3 at the demonstration tree and binding `["x", "y"]`. -/
theorem claim_C3_witness :
    (∀ n ∈ mainAST.identifiersOf, n ∈ (["x", "y"] : List String)) ∧
    (∃ f, UserFunction.compile ["x", "y"] mainAST = .ok f ∧
      f.signature.params.length = (["x", "y"] : List String).length ∧
      (∀ t ∈ f.signature.params, t = JitType.float64) ∧
      f.signature.ret = JitType.float64) :=
  ⟨by decide, claim_C3_success_arity ["x", "y"] mainAST (by decide)⟩

/--
C4: generating a Binary node visits the left child first (from the current
accumulator state), then the right child (from the state the left child
left), and emits the operator instruction over the handles in operand order
(left, right); in particular `Binary(Minus, Number(10), Number(4))`
evaluates to `6.0`, not `-6.0`.
-/
theorem claim_C4_operand_order (identifiers : List String) (op : BinaryOperator)
    (l r : ExprAST) (cur : Option JitValue) (L R : JitValue)
    (hl : UserFunction.accept identifiers l cur = .ok L)
    (hr : UserFunction.accept identifiers r (some L) = .ok R) :
    UserFunction.accept identifiers (.binary op l r) cur = .ok (.binInsn op L R) ∧
    (∀ u, compileAndCall u []
        (.binary .Minus (.number (.finite 10)) (.number (.finite 4))) []
        = .ok (.finite 6)) ∧
    F64.finite 6 ≠ F64.finite (-6) := by
  refine ⟨by simp [UserFunction.accept, hl, hr], ?_, ?_⟩
  · intro u
    with_unfolding_all rfl
  · with_unfolding_all decide

/-- Witness for C4 at `Binary(Minus, Number(10), Number(4))` with the empty
binding. -/
theorem claim_C4_witness :
    (UserFunction.accept [] (.number (.finite 10)) none = .ok (.const (.finite 10)) ∧
      UserFunction.accept [] (.number (.finite 4)) (some (.const (.finite 10)))
        = .ok (.const (.finite 4))) ∧
    (UserFunction.accept [] (.binary .Minus (.number (.finite 10)) (.number (.finite 4))) none
        = .ok (.binInsn .Minus (.const (.finite 10)) (.const (.finite 4))) ∧
      (∀ u, compileAndCall u []
          (.binary .Minus (.number (.finite 10)) (.number (.finite 4))) []
          = .ok (.finite 6)) ∧
      F64.finite 6 ≠ F64.finite (-6)) :=
  ⟨⟨rfl, rfl⟩,
    claim_C4_operand_order [] .Minus (.number (.finite 10)) (.number (.finite 4)) none
      (.const (.finite 10)) (.const (.finite 4)) rfl rfl⟩

/--
C5: for every tree, compiling with binding `["x", "y"]` and invoking with
`(a, b)` gives the same outcome as compiling with binding `["y", "x"]` and
invoking with `(b, a)` — slot indices follow each name's position in the
ordered binding list.
-/
theorem claim_C5_binding_order (u : UnaryOperator → F64 → F64) (e : ExprAST)
    (a b : F64) :
    compileAndCall u ["x", "y"] e [a, b] = compileAndCall u ["y", "x"] e [b, a] := by
  rw [compileAndCall_eq_denote, compileAndCall_eq_denote, envOf_swap_xy]

/--
C6: division by zero is not signalled as an error: the compiled callable for
`Binary(Div, Number(1), Number(0))` returns positive infinity and the one
for `Binary(Div, Number(0), Number(0))` returns NaN, per the IEEE 754
semantics of the modelled backend arithmetic.
-/
theorem claim_C6_division_by_zero (u : UnaryOperator → F64 → F64) :
    compileAndCall u [] (.binary .Div (.number (.finite 1)) (.number (.finite 0))) []
      = .ok F64.inf ∧
    compileAndCall u [] (.binary .Div (.number (.finite 0)) (.number (.finite 0))) []
      = .ok F64.nan := by
  constructor
  · with_unfolding_all rfl
  · with_unfolding_all rfl

/--
C7: a compiled callable is a pure function of its arguments: across any
sequence of invocations, each invocation returns exactly what invoking the
pristine callable on the same argument vector returns (so identical
argument vectors give identical results, wherever they occur in the
sequence), and the callable itself is unchanged by invocation.
-/
theorem claim_C7_invocation_purity (u : UnaryOperator → F64 → F64)
    (f : CompiledCallable) (argss : List (List F64)) :
    (runInvocations u f argss).1 = argss.map (fun args => f.call u args) ∧
    (runInvocations u f argss).2 = f := by
  induction argss with
  | nil => exact ⟨rfl, rfl⟩
  | cons args rest ih =>
    constructor
    · simp only [runInvocations, CompiledCallable.invoke, List.map_cons]
      exact congrArg (List.cons (f.call u args)) ih.1
    · simp only [runInvocations, CompiledCallable.invoke]
      exact ih.2

/--
C8: the accumulator-style generator, which threads results through the
mutable `current_result` field during the post-order traversal, returns for
every tree and every initial accumulator state the same handle as the
explicit-return recursive generator, and the built body agrees as well.
-/
theorem claim_C8_accumulator_refinement (identifiers : List String) (e : ExprAST)
    (cur : Option JitValue) :
    UserFunction.accept identifiers e cur = codegen identifiers e ∧
    UserFunction.build identifiers e = codegen identifiers e :=
  ⟨accept_eq_codegen identifiers e cur, accept_eq_codegen identifiers e none⟩

/--
C9: in the C++ API variant, an identifier whose name occurs in the binding
list (possibly several times) deterministically resolves to the first
(lowest) slot index holding that name: the visitor returns the parameter at
the first-match distance, the name sits at that index, and at no smaller
index.
-/
theorem claim_C9_duplicate_names_first_slot (identifiers : List String)
    (name : String) (cur : Option JitValue) (h : name ∈ identifiers) :
    UserFunction.accept identifiers (.identifier name) cur
      = .ok (.param (distanceToFirst (fun s => s == name) identifiers)) ∧
    identifiers[distanceToFirst (fun s => s == name) identifiers]? = some name ∧
    ∀ j < distanceToFirst (fun s => s == name) identifiers,
      identifiers[j]? ≠ some name := by
  have hd : distanceToFirst (fun s => s == name) identifiers < identifiers.length :=
    (distanceToFirst_lt_length_iff identifiers).mpr ⟨name, h, by simp⟩
  refine ⟨by simp [UserFunction.accept, hd], ?_, ?_⟩
  · obtain ⟨x, hx, hpx⟩ := distanceToFirst_getElem identifiers hd
    have hxn : x = name := by simpa using hpx
    rw [hx, hxn]
  · intro j hj hsome
    have hfalse := distanceToFirst_minimal identifiers j hj name hsome
    simp at hfalse

/-- Witness for C9 at the duplicate binding `["x", "y", "x"]` and the name
`"x"`. -/
theorem claim_C9_witness :
    ("x" ∈ (["x", "y", "x"] : List String)) ∧
    (UserFunction.accept ["x", "y", "x"] (.identifier "x") none
        = .ok (.param (distanceToFirst (fun s => s == "x") ["x", "y", "x"])) ∧
      (["x", "y", "x"] : List String)[distanceToFirst (fun s => s == "x")
          ["x", "y", "x"]]? = some "x" ∧
      ∀ j < distanceToFirst (fun s => s == "x") (["x", "y", "x"] : List String),
        (["x", "y", "x"] : List String)[j]? ≠ some "x") :=
  ⟨by decide, claim_C9_duplicate_names_first_slot ["x", "y", "x"] "x" none (by decide)⟩

/--
C10: in the C API variant, with slot indices taken from the map's iteration
order and the argument vector packed from the same map in the same order,
every identifier bound in a duplicate-free map reads exactly its own bound
value, and the end-to-end result is the same for any reordering of the
map's entries.
-/
theorem claim_C10_map_order_invariance (u : UnaryOperator → F64 → F64)
    (m₁ m₂ : List (String × F64)) (e : ExprAST)
    (hperm : List.Perm m₁ m₂) (hnd : (m₁.map Prod.fst).Nodup) :
    (∀ (name : String) (v : F64) (cur : Option JitValue), (name, v) ∈ m₁ →
      (CodegenVisitor.accept m₁ (.identifier name) cur).map
          (JitValue.eval u (m₁.map Prod.snd)) = .ok v) ∧
    compile_and_run u e m₁ = compile_and_run u e m₂ := by
  constructor
  · intro name v cur hmem
    rw [capi_accept_map_eval]
    simp [denoteE, mapFind_eq_some_of_mem m₁ hnd hmem]
  · rw [compile_and_run_eq_denote, compile_and_run_eq_denote,
      mapFind_perm m₁ m₂ hperm hnd]

/-- Witness for C10 at the C API demonstration map in its two orders and the
demonstration tree. -/
theorem claim_C10_witness :
    (List.Perm [("x", F64.finite 6), ("y", F64.finite 2)]
        [("y", F64.finite 2), ("x", F64.finite 6)] ∧
      (([("x", F64.finite 6), ("y", F64.finite 2)] : List (String × F64)).map
          Prod.fst).Nodup) ∧
    ((∀ (name : String) (v : F64) (cur : Option JitValue),
        (name, v) ∈ [("x", F64.finite 6), ("y", F64.finite 2)] →
        (CodegenVisitor.accept [("x", F64.finite 6), ("y", F64.finite 2)]
            (.identifier name) cur).map
            (JitValue.eval (fun _ x => x)
              ([("x", F64.finite 6), ("y", F64.finite 2)].map Prod.snd)) = .ok v) ∧
      compile_and_run (fun _ x => x) mainAST [("x", F64.finite 6), ("y", F64.finite 2)]
        = compile_and_run (fun _ x => x) mainAST
            [("y", F64.finite 2), ("x", F64.finite 6)]) :=
  ⟨⟨List.Perm.swap ("y", F64.finite 2) ("x", F64.finite 6) [], by decide⟩,
    claim_C10_map_order_invariance (fun _ x => x)
      [("x", F64.finite 6), ("y", F64.finite 2)]
      [("y", F64.finite 2), ("x", F64.finite 6)] mainAST
      (List.Perm.swap ("y", F64.finite 2) ("x", F64.finite 6) []) (by decide)⟩

end LibjitPlayground
